import Mathlib

/-!
Verification development for the TEController congestion-probability engine
(`tecontroller/res/problib.py`).

Python floats are modelled as exact rationals (`ℚ`), Python ints as `ℕ`,
the memoization dictionary `self.sdict` as an association list from
`(m, n, k)` triples to rationals, and the networkx `DiGraph` as an
adjacency association list carrying the `capacity` and `mincap` edge
attributes.  Fallible operations (e.g. `min` of an empty list) return
`Option`.
-/

/-- A memoization key `(m, n, k)`. -/
abbrev SKey := ℕ × ℕ × ℕ

/-- The in-memory memoization dictionary `self.sdict`. -/
abbrev Store := List (SKey × ℚ)

/-- Dictionary lookup: `self.sdict[(m,n,k)]` guarded by
`(m,n,k) in self.sdict.keys()`. -/
def lookupStore (s : Store) (key : SKey) : Option ℚ :=
  (s.find? (fun p => decide (p.1 = key))).map (·.2)

/-- The guarded insertion
`if (m, n, k) not in self.sdict.keys(): self.sdict[(m,n,k)] = result`. -/
def insertIfAbsent (s : Store) (key : SKey) (v : ℚ) : Store :=
  if (lookupStore s key).isSome then s else s ++ [(key, v)]

/-- Unconditional dictionary assignment `self.sdict[(m,n,k)] = sncp`:
overwrites the binding if the key is present, appends it otherwise. -/
def storeSet (s : Store) (key : SKey) (v : ℚ) : Store :=
  if (lookupStore s key).isSome then
    s.map (fun p => if p.1 = key then (key, v) else p)
  else s ++ [(key, v)]

/-- The summand of the recurrence for one value of `t`:
`comb(n, t) * (1/m)**t * ((m-1)/m)**(n-t)` (exact rational model of the
floating-point expression). -/
def binomTerm (m n t : ℕ) : ℚ :=
  (n.choose t : ℚ) * (1 / (m : ℚ)) ^ t * (((m : ℚ) - 1) / (m : ℚ)) ^ (n - t)

/-- The sum `sum(map(function, range(0, k+1)))` of `SNonCongestionProbability`,
parametric in the recursive call `f` (which receives `n - t` and the
current store).  `t` counts up, `r` is the number of summands left; the
store threads through the calls in increasing `t` order, exactly as the
eagerly-evaluated Python `sum` does. -/
def SNCPsum (f : ℕ → Store → ℚ × Store) (m n : ℕ) : ℕ → ℕ → Store → ℚ × Store
  | _, 0, s => (0, s)
  | t, r + 1, s =>
    let a := f (n - t) s
    let rest := SNCPsum f m n (t + 1) r a.2
    (a.1 * binomTerm m n t + rest.1, rest.2)

/-- Python `ProbabiliyCalculator.SNonCongestionProbability`, as a function of the
in-memory store (the only state it touches).  Returns the value together
with the updated store. -/
def SNonCongestionProbability (m n k : ℕ) (s : Store) : ℚ × Store :=
  match lookupStore s (m, n, k) with
  | some v => (v, s)
  | none =>
    if _h1 : m * k < n then (0, s)
    else if _h2 : n ≤ k then (1, s)
    else
      let r := SNCPsum (fun n' s' => SNonCongestionProbability (m - 1) n' k s') m n 0 (k + 1) s
      (r.1, insertIfAbsent r.2 (m, n, k) r.1)
termination_by m
decreasing_by
  cases m with
  | zero => exfalso; simp only [Nat.zero_mul, Nat.not_lt] at _h1; omega
  | succ m' => omega

/-- The observable state of a `ProbabiliyCalculator`: the in-memory store,
the durable cache-file contents, and a count of file writes. -/
structure Engine where
  sdict : Store
  file : Store
  fileWrites : ℕ

/-- Python `ProbabiliyCalculator.dumpSDict`: serialize the whole in-memory store
to the cache file. -/
def dumpSDict (e : Engine) : Engine :=
  { e with file := e.sdict, fileWrites := e.fileWrites + 1 }

/-- Python `ProbabiliyCalculator.SCongestionProbability` as a method on the engine
state: on a cache hit return the complement of the stored value; on a miss
compute the non-congestion probability, store it, dump the store to the
cache file, and return the complement. -/
def SCongestionProbability (m n k : ℕ) (e : Engine) : ℚ × Engine :=
  match lookupStore e.sdict (m, n, k) with
  | some v => (1 - v, e)
  | none =>
    let r := SNonCongestionProbability m n k e.sdict
    let e2 : Engine := { e with sdict := storeSet r.2 (m, n, k) r.1 }
    (1 - r.1, dumpSDict e2)

/-- The method `SNonCongestionProbability` invoked on the engine: it only
touches the in-memory store, never the cache file. -/
def SNonCongestionProbabilityCall (m n k : ℕ) (e : Engine) : ℚ × Engine :=
  let r := SNonCongestionProbability m n k e.sdict
  (r.1, { e with sdict := r.2 })

/-! ### C1: complementarity of the two accessors -/

/-- C1: for every non-negative triple `(m, n, k)` and every memoization-store
state, `SCongestionProbability` returns exactly `1` minus the value
`SNonCongestionProbability` returns for the same key (on a hit, `1` minus the
stored value; on a miss, `1` minus the freshly computed non-congestion
probability), so the two results sum to `1`. -/
theorem SCongestionProbability_complement (m n k : ℕ) (e : Engine) :
    (SCongestionProbability m n k e).1
      = 1 - (SNonCongestionProbability m n k e.sdict).1 ∧
    (SCongestionProbability m n k e).1
      + (SNonCongestionProbability m n k e.sdict).1 = 1 := by
  have h : (SCongestionProbability m n k e).1
      = 1 - (SNonCongestionProbability m n k e.sdict).1 := by
    unfold SCongestionProbability
    cases hl : lookupStore e.sdict (m, n, k) with
    | none => simp [hl]
    | some v =>
      rw [SNonCongestionProbability]
      simp [hl]
  exact ⟨h, by rw [h]; ring⟩

/-! ### C2: base cases of the recurrence -/

/-- C2 (counterexample): at the non-negative triple `(0, 1, 1)`, absent from
the empty store, we have `n ≤ k` (`1 ≤ 1`), yet `SNonCongestionProbability`
returns `0`, not `1`, because the `m * k < n` check is made first. -/
theorem SNonCongestionProbability_base_counterexample :
    lookupStore [] (0, 1, 1) = none ∧ (1 : ℕ) ≤ 1 ∧
    (SNonCongestionProbability 0 1 1 []).1 = 0 ∧
    (SNonCongestionProbability 0 1 1 []).1 ≠ 1 := by
  have h0 : (SNonCongestionProbability 0 1 1 []).1 = 0 := by
    rw [SNonCongestionProbability]; rfl
  exact ⟨rfl, le_refl 1, h0, by rw [h0]; norm_num⟩

/-- C2 (amended): for every non-negative triple `(m, n, k)` absent from the
memoization store, `SNonCongestionProbability` returns `0` whenever
`m * k < n`, and returns `1` whenever `n ≤ k` *and* `n ≤ m * k` (the
`m * k < n` check takes precedence); in particular
`SNonCongestionProbability (2, 5, 1) = 0` and
`SNonCongestionProbability (3, 2, 5) = 1`. -/
theorem SNonCongestionProbability_base_cases (m n k : ℕ) (s : Store)
    (habs : lookupStore s (m, n, k) = none) :
    (m * k < n → (SNonCongestionProbability m n k s).1 = 0) ∧
    (n ≤ m * k → n ≤ k → (SNonCongestionProbability m n k s).1 = 1) ∧
    (SNonCongestionProbability 2 5 1 []).1 = 0 ∧
    (SNonCongestionProbability 3 2 5 []).1 = 1 := by
  refine ⟨?_, ?_, by rw [SNonCongestionProbability]; rfl,
    by rw [SNonCongestionProbability]; rfl⟩
  · intro h
    rw [SNonCongestionProbability]
    simp [habs, h]
  · intro h1 h2
    rw [SNonCongestionProbability]
    simp [habs, Nat.not_lt.mpr h1, h2]

/-- C2 (witness): the amended theorem applied at the concrete triple
`(2, 5, 1)` with the empty store. -/
theorem SNonCongestionProbability_base_cases_witness :
    lookupStore [] (2, 5, 1) = none ∧
    (2 * 1 < 5 → (SNonCongestionProbability 2 5 1 []).1 = 0) := by
  exact ⟨rfl, (SNonCongestionProbability_base_cases 2 5 1 [] rfl).1⟩

/-! ### Store lemmas -/

theorem lookupStore_cons (p : SKey × ℚ) (s : Store) (key : SKey) :
    lookupStore (p :: s) key
      = if p.1 = key then some p.2 else lookupStore s key := by
  by_cases hp : p.1 = key <;> simp [lookupStore, List.find?, hp]

theorem lookupStore_append_some (s t : Store) (key : SKey) (v : ℚ)
    (h : lookupStore s key = some v) : lookupStore (s ++ t) key = some v := by
  induction s with
  | nil => simp [lookupStore] at h
  | cons p s ih =>
    rw [lookupStore_cons] at h
    rw [List.cons_append, lookupStore_cons]
    by_cases hp : p.1 = key
    · simpa [hp] using h
    · simp only [hp, if_false] at h ⊢
      exact ih h

theorem lookupStore_mapSet_other (s : Store) (key key' : SKey) (v : ℚ)
    (hne : key' ≠ key) :
    lookupStore (s.map (fun p => if p.1 = key then (key, v) else p)) key'
      = lookupStore s key' := by
  induction s with
  | nil => rfl
  | cons p s ih =>
    rw [List.map_cons, lookupStore_cons, lookupStore_cons]
    by_cases hp : p.1 = key
    · have h1 : (if p.1 = key then (key, v) else p).1 = key := by simp [hp]
      rw [h1]
      have h2 : ¬ key = key' := fun h => hne h.symm
      simp only [h2, if_false, hp, ih]
    · have h1 : (if p.1 = key then (key, v) else p) = p := by simp [hp]
      rw [h1, ih]

theorem lookupStore_appendSingle_other (s : Store) (key key' : SKey) (v : ℚ)
    (hne : key' ≠ key) :
    lookupStore (s ++ [(key, v)]) key' = lookupStore s key' := by
  induction s with
  | nil =>
    have h2 : ¬ key = key' := fun h => hne h.symm
    simp [lookupStore, List.find?, h2]
  | cons p s ih =>
    rw [List.cons_append, lookupStore_cons, lookupStore_cons, ih]

theorem lookupStore_storeSet_other (s : Store) (key key' : SKey) (v : ℚ)
    (hne : key' ≠ key) :
    lookupStore (storeSet s key v) key' = lookupStore s key' := by
  unfold storeSet
  split
  · exact lookupStore_mapSet_other s key key' v hne
  · exact lookupStore_appendSingle_other s key key' v hne

theorem lookupStore_insertIfAbsent_preserve (s : Store) (key key' : SKey) (v w : ℚ)
    (h : lookupStore s key' = some w) :
    lookupStore (insertIfAbsent s key v) key' = some w := by
  unfold insertIfAbsent
  split
  · exact h
  · exact lookupStore_append_some s [(key, v)] key' w h

/-! ### Preservation of existing bindings through the recurrence -/

theorem SNCPsum_preserve (f : ℕ → Store → ℚ × Store) (m n : ℕ)
    (hf : ∀ n' s key v, lookupStore s key = some v →
      lookupStore (f n' s).2 key = some v) :
    ∀ r t s key v, lookupStore s key = some v →
      lookupStore (SNCPsum f m n t r s).2 key = some v := by
  intro r
  induction r with
  | zero => intro t s key v h; exact h
  | succ r ih =>
    intro t s key v h
    simp only [SNCPsum]
    exact ih (t + 1) (f (n - t) s).2 key v (hf (n - t) s key v h)

theorem SNonCongestionProbability_preserve :
    ∀ (m n k : ℕ) (s : Store) (key : SKey) (v : ℚ),
      lookupStore s key = some v →
      lookupStore (SNonCongestionProbability m n k s).2 key = some v := by
  intro m n k s
  induction m, n, k, s using SNonCongestionProbability.induct with
  | case1 m n k s w hw =>
    intro key v h
    rw [SNonCongestionProbability]
    simpa [hw] using h
  | case2 m n k s habs hlt =>
    intro key v h
    rw [SNonCongestionProbability]
    simpa [habs, hlt] using h
  | case3 m n k s habs hnlt hle =>
    intro key v h
    rw [SNonCongestionProbability]
    simpa [habs, hnlt, hle] using h
  | case4 m n k s habs hnlt hnle ih =>
    intro key v h
    rw [SNonCongestionProbability]
    simp only [habs, hnlt, hnle, dif_neg, not_false_iff]
    exact lookupStore_insertIfAbsent_preserve _ _ _ _ _
      (SNCPsum_preserve _ m n (fun n' s' key' v' h' => ih n' s' key' v' h')
        (k + 1) 0 s key v h)

theorem SCongestionProbability_preserve (m n k : ℕ) (e : Engine) (key : SKey) (v : ℚ)
    (h : lookupStore e.sdict key = some v) :
    lookupStore (SCongestionProbability m n k e).2.sdict key = some v := by
  unfold SCongestionProbability
  cases hl : lookupStore e.sdict (m, n, k) with
  | some w => simpa [hl] using h
  | none =>
    have hne : key ≠ (m, n, k) := by
      rintro rfl
      rw [h] at hl
      cases hl
    simp only [hl, dumpSDict]
    rw [lookupStore_storeSet_other _ _ _ _ hne]
    exact SNonCongestionProbability_preserve m n k e.sdict key v h

/-! ### C5: who writes the durable cache file -/

/-- C5: `SNonCongestionProbability` never writes the durable cache file (it
only mutates the in-memory store), while `SCongestionProbability` writes the
entire in-memory store to the cache file if and only if the key `(m, n, k)`
was absent from the store when it was called — on a cache hit it performs no
file write (indeed it leaves the whole engine state unchanged). -/
theorem cacheFile_write_discipline (m n k : ℕ) (e : Engine) :
    ((SNonCongestionProbabilityCall m n k e).2.file = e.file ∧
     (SNonCongestionProbabilityCall m n k e).2.fileWrites = e.fileWrites) ∧
    ((lookupStore e.sdict (m, n, k)).isSome →
      (SCongestionProbability m n k e).2 = e) ∧
    (lookupStore e.sdict (m, n, k) = none →
      (SCongestionProbability m n k e).2.fileWrites = e.fileWrites + 1 ∧
      (SCongestionProbability m n k e).2.file
        = (SCongestionProbability m n k e).2.sdict) := by
  refine ⟨⟨rfl, rfl⟩, ?_, ?_⟩
  · intro hs
    unfold SCongestionProbability
    cases hl : lookupStore e.sdict (m, n, k) with
    | some w => rfl
    | none => rw [hl] at hs; simp at hs
  · intro hl
    unfold SCongestionProbability
    simp [hl, dumpSDict]

/-- C5 (witness): starting from a fresh engine, the key `(1, 1, 1)` is
absent, so the congestion accessor performs exactly one file write and the
file afterwards holds the whole in-memory store. -/
theorem cacheFile_write_discipline_witness :
    lookupStore (Engine.mk [] [] 0).sdict (1, 1, 1) = none ∧
    ((SCongestionProbability 1 1 1 (Engine.mk [] [] 0)).2.fileWrites = 0 + 1 ∧
     (SCongestionProbability 1 1 1 (Engine.mk [] [] 0)).2.file
       = (SCongestionProbability 1 1 1 (Engine.mk [] [] 0)).2.sdict) :=
  ⟨rfl, (cacheFile_write_discipline 1 1 1 (Engine.mk [] [] 0)).2.2 rfl⟩

/-! ### C6: bindings in the store are never changed once inserted -/

/-- A call to one of the two public accessors of the engine. -/
inductive PCall where
  | sncp (m n k : ℕ)
  | scp (m n k : ℕ)

/-- Execute one accessor call for its state effect. -/
def runCall (e : Engine) : PCall → Engine
  | PCall.sncp m n k => (SNonCongestionProbabilityCall m n k e).2
  | PCall.scp m n k => (SCongestionProbability m n k e).2

/-- Execute a sequence of accessor calls. -/
def runCalls (e : Engine) : List PCall → Engine
  | [] => e
  | c :: cs => runCalls (runCall e c) cs

/-- C6: for every sequence of `SNonCongestionProbability` /
`SCongestionProbability` calls on one engine instance, once a key
`(m, n, k)` is bound to a value in the memoization store, no later operation
ever changes that key's value. -/
theorem store_bindings_stable (calls : List PCall) (e : Engine) (key : SKey)
    (v : ℚ) (h : lookupStore e.sdict key = some v) :
    lookupStore (runCalls e calls).sdict key = some v := by
  induction calls generalizing e with
  | nil => exact h
  | cons c cs ih =>
    cases c with
    | sncp m n k =>
      exact ih _ (SNonCongestionProbability_preserve m n k e.sdict key v h)
    | scp m n k =>
      exact ih _ (SCongestionProbability_preserve m n k e key v h)

/-- C6 (witness): a store binding `(1,1,1) ↦ 1/2` survives a congestion
call on the same key followed by a non-congestion call on another key. -/
theorem store_bindings_stable_witness :
    lookupStore (Engine.mk [((1, 1, 1), 1/2)] [] 0).sdict (1, 1, 1)
      = some (1/2) ∧
    lookupStore (runCalls (Engine.mk [((1, 1, 1), 1/2)] [] 0)
      [PCall.scp 1 1 1, PCall.sncp 2 2 1]).sdict (1, 1, 1) = some (1/2) :=
  ⟨rfl, store_bindings_stable _ _ _ _ rfl⟩

/-! ### The capacitated graph model

A networkx `DiGraph` is modelled as an adjacency association list: each
node maps to the list of its out-edges `(successor, capacity, mincap)`.
Sink nodes appear with an empty adjacency list (networkx membership holds
for them too). -/

abbrev Graph := List (ℕ × List (ℕ × ℚ × ℚ))

/-- Lookup `dag[x]`: the out-edge list of `x` (empty if `x` is not a node). -/
def adjList (g : Graph) (x : ℕ) : List (ℕ × ℚ × ℚ) :=
  ((g.find? (fun p => decide (p.1 = x))).map (·.2)).getD []

/-- Iteration `for node in dag[x]`: the successor nodes of `x`. -/
def succs (g : Graph) (x : ℕ) : List ℕ :=
  (adjList g x).map (·.1)

/-- Membership test `x in dag`. -/
def isNode (g : Graph) (x : ℕ) : Bool :=
  g.any (fun p => decide (p.1 = x))

/-- The pair `(dag[x][y]['capacity'], dag[x][y]['mincap'])`, defaulting to `(0, 0)`
when the edge is missing (the Python code never looks up a missing edge on
the inputs it is used with). -/
def getEdge (g : Graph) (x y : ℕ) : ℚ × ℚ :=
  (((adjList g x).find? (fun q => decide (q.1 = y))).map (·.2)).getD (0, 0)

/-- Assignment `dag[x][y]['capacity'] = c`. -/
def setCap (g : Graph) (x y : ℕ) (c : ℚ) : Graph :=
  g.map (fun p =>
    if p.1 = x then (p.1, p.2.map (fun q => if q.1 = y then (q.1, c, q.2.2) else q))
    else p)

/-- All node identifiers mentioned by the graph (keys and successors);
used only as the termination measure of the path enumeration. -/
def nodesOf (g : Graph) : Finset ℕ :=
  g.foldr (fun p acc => insert p.1 (p.2.foldr (fun q acc2 => insert q.1 acc2) acc)) ∅

theorem mem_foldr_insert_of_mem_acc (l : List (ℕ × ℚ × ℚ)) (acc : Finset ℕ)
    (a : ℕ) (h : a ∈ acc) :
    a ∈ l.foldr (fun q acc2 => insert q.1 acc2) acc := by
  induction l with
  | nil => exact h
  | cons q l ih => exact Finset.mem_insert_of_mem ih

theorem mem_foldr_insert_of_mem_map (l : List (ℕ × ℚ × ℚ)) (acc : Finset ℕ)
    (a : ℕ) (h : a ∈ l.map (·.1)) :
    a ∈ l.foldr (fun q acc2 => insert q.1 acc2) acc := by
  induction l with
  | nil => simp at h
  | cons q l ih =>
    rcases List.mem_cons.mp h with h1 | h2
    · simp [h1]
    · exact Finset.mem_insert_of_mem (ih h2)

theorem adjList_cons (n : ℕ) (es : List (ℕ × ℚ × ℚ)) (g : Graph) (x : ℕ) :
    adjList ((n, es) :: g) x = if n = x then es else adjList g x := by
  by_cases hn : n = x <;> simp [adjList, List.find?, hn]

theorem nodesOf_cons (n : ℕ) (es : List (ℕ × ℚ × ℚ)) (g : Graph) :
    nodesOf ((n, es) :: g)
      = insert n (es.foldr (fun q acc2 => insert q.1 acc2) (nodesOf g)) := rfl

theorem mem_nodesOf_of_mem_succs (g : Graph) (v x : ℕ) (h : x ∈ succs g v) :
    x ∈ nodesOf g := by
  induction g with
  | nil => simp [succs, adjList] at h
  | cons p g ih =>
    obtain ⟨n, es⟩ := p
    rw [succs, adjList_cons] at h
    rw [nodesOf_cons]
    by_cases hn : n = v
    · rw [if_pos hn] at h
      exact Finset.mem_insert_of_mem (mem_foldr_insert_of_mem_map es (nodesOf g) x h)
    · rw [if_neg hn] at h
      exact Finset.mem_insert_of_mem
        (mem_foldr_insert_of_mem_acc es (nodesOf g) x (ih h))

/-- Python `getAllPathsLimDAG`: all loop-free paths from `start` to `endNode`,
with at most `k` hops when `k > 0` and unbounded when `k = 0`.  `path` is
the accumulator of already visited nodes, as in the Python default
argument. -/
def getAllPathsLimDAG (dag : Graph) (start endNode k : ℕ) (path : List ℕ) :
    List (List ℕ) :=
  let path2 := path ++ [start]
  if start = endNode then [path2]
  else if isNode dag start = false then []
  else
    (succs dag start).attach.flatMap (fun c =>
      if _hmem : c.1 ∈ path2 then []
      else if k = 0 then getAllPathsLimDAG dag c.1 endNode k path2
      else if path2.length < k + 1 then getAllPathsLimDAG dag c.1 endNode k path2
      else [])
termination_by (nodesOf dag \ (path ++ [start]).toFinset).card
decreasing_by
  all_goals
  · have hcU : c.1 ∈ nodesOf dag := mem_nodesOf_of_mem_succs dag start c.1 c.2
    have hsub : nodesOf dag \ ((path ++ [start]) ++ [c.1]).toFinset
        ⊆ nodesOf dag \ (path ++ [start]).toFinset := by
      apply Finset.sdiff_subset_sdiff (le_refl _)
      intro a ha
      rw [List.mem_toFinset] at ha ⊢
      exact List.mem_append_left _ ha
    have hmemd : c.1 ∈ nodesOf dag \ (path ++ [start]).toFinset := by
      rw [Finset.mem_sdiff, List.mem_toFinset]
      exact ⟨hcU, _hmem⟩
    have hnot : c.1 ∉ nodesOf dag \ ((path ++ [start]) ++ [c.1]).toFinset := by
      simp
    exact Finset.card_lt_card
      ((Finset.ssubset_iff_of_subset hsub).mpr ⟨c.1, hmemd, hnot⟩)

/-- Fuel-based structural twin of `getAllPathsLimDAG`, used to evaluate it
on concrete graphs. -/
def goPathsFuel : ℕ → Graph → ℕ → ℕ → ℕ → List ℕ → List (List ℕ)
  | 0, _, _, _, _, _ => []
  | fuel + 1, dag, start, endNode, k, path =>
    let path2 := path ++ [start]
    if start = endNode then [path2]
    else if isNode dag start = false then []
    else
      (succs dag start).flatMap (fun c =>
        if c ∈ path2 then []
        else if k = 0 then goPathsFuel fuel dag c endNode k path2
        else if path2.length < k + 1 then goPathsFuel fuel dag c endNode k path2
        else [])

theorem flatMap_congr_mem {α β : Type} {l : List α} {f g : α → List β}
    (h : ∀ a ∈ l, f a = g a) : l.flatMap f = l.flatMap g := by
  induction l with
  | nil => rfl
  | cons a l ih =>
    rw [List.flatMap_cons, List.flatMap_cons, h a (List.mem_cons_self a l),
      ih (fun b hb => h b (List.mem_cons_of_mem a hb))]

theorem getAllPathsLimDAG_eq_fuel (dag : Graph) (start endNode k : ℕ)
    (path : List ℕ) :
    ∀ fuel, (nodesOf dag \ (path ++ [start]).toFinset).card < fuel →
      getAllPathsLimDAG dag start endNode k path
        = goPathsFuel fuel dag start endNode k path := by
  induction start, endNode, k, path using getAllPathsLimDAG.induct dag with
  | case1 endNode k path =>
    intro fuel hf
    match fuel with
    | f + 1 => rw [getAllPathsLimDAG]; simp [goPathsFuel]
  | case2 start endNode k path h1 h2 =>
    intro fuel hf
    match fuel with
    | f + 1 => rw [getAllPathsLimDAG]; simp [goPathsFuel, h1, h2]
  | case3 start endNode k path path2 h1 h2 ih =>
    intro fuel hf
    match fuel with
    | f + 1 =>
      rw [getAllPathsLimDAG]
      simp only [goPathsFuel, if_neg h1, if_neg h2]
      conv_rhs => rw [← List.attach_map_subtype_val (succs dag start), List.flatMap_map]
      apply flatMap_congr_mem
      intro c _
      by_cases hmem : c.1 ∈ path ++ [start]
      · simp [hmem]
      · have hcU : c.1 ∈ nodesOf dag := mem_nodesOf_of_mem_succs dag start c.1 c.2
        have hless : (nodesOf dag \ ((path ++ [start]) ++ [c.1]).toFinset).card < f := by
          have hsub : nodesOf dag \ ((path ++ [start]) ++ [c.1]).toFinset
              ⊆ nodesOf dag \ (path ++ [start]).toFinset := by
            apply Finset.sdiff_subset_sdiff (le_refl _)
            intro a ha
            rw [List.mem_toFinset] at ha ⊢
            exact List.mem_append_left _ ha
          have hmemd : c.1 ∈ nodesOf dag \ (path ++ [start]).toFinset := by
            rw [Finset.mem_sdiff, List.mem_toFinset]
            exact ⟨hcU, hmem⟩
          have hnot : c.1 ∉ nodesOf dag \ ((path ++ [start]) ++ [c.1]).toFinset := by
            simp
          have := Finset.card_lt_card
            ((Finset.ssubset_iff_of_subset hsub).mpr ⟨c.1, hmemd, hnot⟩)
          omega
        rw [dif_neg hmem, if_neg hmem]
        by_cases hk : k = 0
        · rw [if_pos hk, if_pos hk]
          exact ih c hmem f hless
        · rw [if_neg hk, if_neg hk]
          by_cases hlen : (path ++ [start]).length < k + 1
          · rw [if_pos hlen, if_pos hlen]
            exact ih c hmem f hless
          · rw [if_neg hlen, if_neg hlen]


theorem isNode_of_mem_succs (g : Graph) (x y : ℕ) (h : y ∈ succs g x) :
    isNode g x = true := by
  induction g with
  | nil => simp [succs, adjList] at h
  | cons p g ih =>
    obtain ⟨n, es⟩ := p
    rw [succs, adjList_cons] at h
    by_cases hn : n = x
    · simp [isNode, List.any_cons, hn]
    · rw [if_neg hn] at h
      simp only [isNode, List.any_cons] at ih ⊢
      rw [ih h]
      simp

theorem getAllPathsLimDAG_sound (dag : Graph) (start endNode k : ℕ)
    (path : List ℕ) :
    ∀ p ∈ getAllPathsLimDAG dag start endNode k path,
      (∃ rest, p = (path ++ [start]) ++ rest) ∧
      p.getLast? = some endNode ∧
      ((path ++ [start]).Nodup → p.Nodup) ∧
      (k ≠ 0 → (path ++ [start]).length ≤ k + 1 → p.length ≤ k + 1) := by
  induction start, endNode, k, path using getAllPathsLimDAG.induct dag with
  | case1 endNode k path =>
    intro p hp
    rw [getAllPathsLimDAG] at hp
    simp only [if_pos rfl, if_true, List.mem_singleton] at hp
    subst hp
    refine ⟨⟨[], (List.append_nil _).symm⟩, ?_, fun h => h, fun _ h => h⟩
    exact List.getLast?_concat _
  | case2 start endNode k path h1 h2 =>
    intro p hp
    rw [getAllPathsLimDAG] at hp
    rw [if_neg h1, if_pos h2] at hp
    simp at hp
  | case3 start endNode k path path2 h1 h2 ih =>
    have hp2 : path2 = path ++ [start] := rfl
    intro p hp
    rw [getAllPathsLimDAG] at hp
    rw [if_neg h1, if_neg h2, List.mem_flatMap] at hp
    obtain ⟨c, hcmem, hp⟩ := hp
    by_cases hmem : c.1 ∈ path ++ [start]
    · rw [dif_pos hmem] at hp
      simp at hp
    · rw [dif_neg hmem] at hp
      have hrec : p ∈ getAllPathsLimDAG dag c.1 endNode k (path ++ [start]) ∧
          (k ≠ 0 → (path ++ [start]).length < k + 1) := by
        by_cases hk : k = 0
        · rw [if_pos hk] at hp
          exact ⟨hp, fun h => absurd hk h⟩
        · rw [if_neg hk] at hp
          by_cases hlen : (path ++ [start]).length < k + 1
          · rw [if_pos hlen] at hp
            exact ⟨hp, fun _ => hlen⟩
          · rw [if_neg hlen] at hp
            simp at hp
      obtain ⟨hin, hklen⟩ := hrec
      obtain ⟨⟨rest, hrest⟩, hlast, hnodup, hlen⟩ := ih c hmem p hin
      refine ⟨⟨c.1 :: rest, by rw [hrest, hp2]; simp⟩, hlast, ?_, ?_⟩
      · intro hnd
        apply hnodup
        rw [List.nodup_append]
        refine ⟨hnd, List.nodup_singleton _, ?_⟩
        intro a ha hb
        rw [List.mem_singleton] at hb
        subst hb
        exact hmem ha
      · intro hk hlen2
        apply hlen hk
        have : (path ++ [start] ++ [c.1]).length = (path ++ [start]).length + 1 := by
          simp
        rw [this]
        exact Nat.succ_le_of_lt (hklen hk)

theorem getAllPathsLimDAG_complete (dag : Graph) (endNode : ℕ) :
    ∀ (rest : List ℕ) (start : ℕ) (path : List ℕ),
      List.Chain' (fun x y => y ∈ succs dag x) (start :: rest) →
      (start :: rest).getLast (List.cons_ne_nil _ _) = endNode →
      (path ++ start :: rest).Nodup →
      (path ++ start :: rest) ∈ getAllPathsLimDAG dag start endNode 0 path := by
  intro rest
  induction rest with
  | nil =>
    intro start path _ hlast _
    simp only [List.getLast_singleton] at hlast
    subst hlast
    rw [getAllPathsLimDAG]
    simp
  | cons c rest ih =>
    intro start path hchain hlast hnodup
    have hcs : c ∈ succs dag start := (List.chain'_cons.mp hchain).1
    have hne : start ≠ endNode := by
      have hmem : endNode ∈ c :: rest := by
        rw [← hlast, List.getLast_cons (List.cons_ne_nil _ _)]
        exact List.getLast_mem _
      intro he
      subst he
      have : start ∉ c :: rest := by
        have := (List.nodup_append.mp hnodup).2.1
        exact (List.nodup_cons.mp this).1
      exact this hmem
    rw [getAllPathsLimDAG]
    simp only [if_neg hne, isNode_of_mem_succs dag start c hcs,
      Bool.true_eq_false, if_false, List.mem_flatMap, List.mem_attach,
      true_and]
    refine ⟨⟨c, hcs⟩, ?_⟩
    have hcnp2 : c ∉ path ++ [start] := by
      intro hc
      rcases List.mem_append.mp hc with hc1 | hc2
      · have hdisj := (List.nodup_append.mp hnodup).2.2
        exact hdisj hc1 (List.mem_cons_of_mem _ (List.mem_cons_self _ _))
      · rw [List.mem_singleton] at hc2
        subst hc2
        have := (List.nodup_append.mp hnodup).2.1
        exact (List.nodup_cons.mp this).1 (List.mem_cons_self _ _)
    rw [dif_neg hcnp2]
    rw [if_true]
    have heq : (path ++ [start]) ++ c :: rest = path ++ start :: c :: rest := by
      rw [List.append_assoc]
      rfl
    rw [← heq] at hnodup ⊢
    apply ih c (path ++ [start])
    · exact (List.chain'_cons.mp hchain).2
    · rw [← hlast, List.getLast_cons (List.cons_ne_nil _ _)]
    · exact hnodup

/-- The 4-node diamond graph A→B, A→C, B→D, C→D of the spec, with
A,B,C,D rendered as 0,1,2,3 (all edges with capacity 1, mincap 0). -/
def diamond : Graph :=
  [(0, [(1, 1, 0), (2, 1, 0)]), (1, [(3, 1, 0)]), (2, [(3, 1, 0)]), (3, [])]

/-- C4: every path returned by `getAllPathsLimDAG` starts at `start`, ends
at `endNode` and has no repeated node; with hop limit `k = 0` it returns
every loop-free directed path from `start` to `endNode` (no length bound);
with `k > 0` every returned path has at most `k` edges, i.e. at most
`k + 1` nodes; and on the diamond graph A→B, A→C, B→D, C→D the unbounded
call from A to D returns exactly `[A,B,D]` and `[A,C,D]`. -/
theorem getAllPathsLimDAG_spec :
    (∀ (dag : Graph) (s e k : ℕ) (p : List ℕ),
       p ∈ getAllPathsLimDAG dag s e k [] →
       p.head? = some s ∧ p.getLast? = some e ∧ p.Nodup) ∧
    (∀ (dag : Graph) (s e : ℕ) (p : List ℕ),
       p.head? = some s → p.getLast? = some e → p.Nodup →
       List.Chain' (fun x y => y ∈ succs dag x) p →
       p ∈ getAllPathsLimDAG dag s e 0 []) ∧
    (∀ (dag : Graph) (s e k : ℕ) (p : List ℕ), k ≠ 0 →
       p ∈ getAllPathsLimDAG dag s e k [] → p.length ≤ k + 1) ∧
    getAllPathsLimDAG diamond 0 3 0 [] = [[0, 1, 3], [0, 2, 3]] := by
  refine ⟨?_, ?_, ?_, ?_⟩
  · intro dag s e k p hp
    obtain ⟨⟨rest, hrest⟩, hlast, hnodup, _⟩ :=
      getAllPathsLimDAG_sound dag s e k [] p hp
    simp only [List.nil_append] at hrest
    subst hrest
    exact ⟨rfl, hlast, hnodup (by simp)⟩
  · intro dag s e p hhead hlast hnodup hchain
    match p, hhead with
    | a :: rest, hhead =>
      have ha : a = s := by simpa using hhead
      subst ha
      have hlast2 : (a :: rest).getLast (List.cons_ne_nil _ _) = e := by
        rw [List.getLast?_eq_getLast _ (List.cons_ne_nil _ _)] at hlast
        exact Option.some_injective _ hlast
      have := getAllPathsLimDAG_complete dag e rest a [] hchain hlast2
        (by simpa using hnodup)
      simpa using this
  · intro dag s e k p hk hp
    obtain ⟨_, _, _, hlen⟩ := getAllPathsLimDAG_sound dag s e k [] p hp
    apply hlen hk
    simp
  · rw [getAllPathsLimDAG_eq_fuel diamond 0 3 0 [] 5 (by decide)]
    rfl

/-- C4 (witness): the completeness part of the specification applied to the
concrete loop-free path `[0, 1, 3]` of the diamond graph. -/
theorem getAllPathsLimDAG_spec_witness :
    ([0, 1, 3] : List ℕ).head? = some 0 ∧
    ([0, 1, 3] : List ℕ).getLast? = some 3 ∧
    ([0, 1, 3] : List ℕ).Nodup ∧
    List.Chain' (fun x y => y ∈ succs diamond x) [0, 1, 3] ∧
    [0, 1, 3] ∈ getAllPathsLimDAG diamond 0 3 0 [] := by
  have hch : List.Chain' (fun x y => y ∈ succs diamond x) [0, 1, 3] := by
    rw [List.chain'_cons, List.chain'_cons]
    exact ⟨by decide, by decide, List.chain'_singleton _⟩
  exact ⟨rfl, rfl, by decide, hch,
    getAllPathsLimDAG_spec.2.1 diamond 0 3 [0, 1, 3] rfl rfl (by decide) hch⟩

/-! ### C8: bottleneck capacity -/

/-- The pairs `zip(path[:-1], path[1:])`: the consecutive edges of a path. -/
def pathEdges (path : List ℕ) : List (ℕ × ℕ) :=
  path.zip path.tail

/-- Python `getMinCapacity`: the minimum `capacity` attribute over the edges of
`path`.  Python's `min` raises `ValueError` on an empty sequence, which is
modelled by `none`; the fold mirrors `min`'s left-to-right scan. -/
def getMinCapacity (dag : Graph) (path : List ℕ) : Option ℚ :=
  match (pathEdges path).map (fun e => (getEdge dag e.1 e.2).1) with
  | [] => none
  | c :: cs => some (cs.foldl min c)

theorem foldl_min_mem (cs : List ℚ) : ∀ c : ℚ, cs.foldl min c ∈ c :: cs := by
  induction cs with
  | nil => intro c; simp
  | cons x cs ih =>
    intro c
    rw [List.foldl_cons]
    rcases List.mem_cons.mp (ih (min c x)) with h2 | h2
    · rw [h2]
      rcases min_choice c x with h | h <;> rw [h]
      · exact List.mem_cons_self _ _
      · exact List.mem_cons_of_mem _ (List.mem_cons_self _ _)
    · exact List.mem_cons_of_mem _ (List.mem_cons_of_mem _ h2)

theorem foldl_min_le (cs : List ℚ) :
    ∀ c : ℚ, ∀ x ∈ c :: cs, cs.foldl min c ≤ x := by
  induction cs with
  | nil =>
    intro c x hx
    rw [List.mem_singleton] at hx
    subst hx
    exact le_refl _
  | cons y cs ih =>
    intro c x hx
    rw [List.foldl_cons]
    have hbase : cs.foldl min (min c y) ≤ min c y :=
      ih (min c y) (min c y) (List.mem_cons_self _ _)
    rcases List.mem_cons.mp hx with h | h
    · subst h
      exact hbase.trans (min_le_left _ _)
    · rcases List.mem_cons.mp h with h2 | h2
      · subst h2
        exact hbase.trans (min_le_right _ _)
      · exact ih (min c y) x (List.mem_cons_of_mem _ h2)

/-- The path of the spec example, with edge capacities `[10, 3, 7]`. -/
def bottleneckExample : Graph :=
  [(0, [(1, 10, 0)]), (1, [(2, 3, 0)]), (2, [(3, 7, 0)]), (3, [])]

/-- C8: for every graph and path with at least two nodes whose consecutive
pairs are edges of the graph, `getMinCapacity` returns the minimum of the
`capacity` attributes over the path's edges; for a path with fewer than two
nodes it fails (`none`) rather than returning a value; and for the example
path with edge capacities `[10, 3, 7]` it returns `3`. -/
theorem getMinCapacity_spec (dag : Graph) (path : List ℕ)
    (hlen : 2 ≤ path.length)
    (_hchain : List.Chain' (fun x y => y ∈ succs dag x) path) :
    (∃ m, getMinCapacity dag path = some m ∧
       m ∈ (pathEdges path).map (fun e => (getEdge dag e.1 e.2).1) ∧
       ∀ c ∈ (pathEdges path).map (fun e => (getEdge dag e.1 e.2).1), m ≤ c) ∧
    (∀ q : List ℕ, q.length < 2 → getMinCapacity dag q = none) ∧
    getMinCapacity bottleneckExample [0, 1, 2, 3] = some 3 := by
  refine ⟨?_, ?_, by decide⟩
  · match path, hlen with
    | a :: b :: rest, _ =>
      exact ⟨_, rfl, foldl_min_mem _ _, foldl_min_le _ _⟩
  · intro q hq
    match q with
    | [] => rfl
    | [x] => rfl
    | x :: y :: rest => simp at hq; omega

/-- C8 (witness): the main part applied to the concrete example path. -/
theorem getMinCapacity_spec_witness :
    2 ≤ ([0, 1, 2, 3] : List ℕ).length ∧
    (∃ m, getMinCapacity bottleneckExample [0, 1, 2, 3] = some m ∧
       m ∈ (pathEdges [0, 1, 2, 3]).map
         (fun e => (getEdge bottleneckExample e.1 e.2).1) ∧
       ∀ c ∈ (pathEdges [0, 1, 2, 3]).map
         (fun e => (getEdge bottleneckExample e.1 e.2).1), m ≤ c) := by
  have hch : List.Chain' (fun x y => y ∈ succs bottleneckExample x)
      [0, 1, 2, 3] := by
    rw [List.chain'_cons, List.chain'_cons, List.chain'_cons]
    exact ⟨by decide, by decide, by decide, List.chain'_singleton _⟩
  exact ⟨by decide,
    (getMinCapacity_spec bottleneckExample [0, 1, 2, 3] (by decide) hch).1⟩

/-! ### C9: ECMP path probability -/

/-- Python `getPathProbability`: the product over the non-terminal nodes of a path
of `1 / len(dag[node])`. -/
def getPathProbability (dag : Graph) (path : List ℕ) : ℚ :=
  (path.dropLast.map (fun node => 1 / ((succs dag node).length : ℚ))).prod

/-- C9: extending a path `p` ending at a node `v` of out-degree `d > 0` by
one uniform ECMP split neither creates nor loses probability mass: the sum
of `getPathProbability` over the `d` one-step extensions of `p` equals
`getPathProbability p`. -/
theorem getPathProbability_split (dag : Graph) (p : List ℕ) (v : ℕ)
    (hne : p ≠ []) (hlast : p.getLast hne = v)
    (hd : 0 < (succs dag v).length) :
    ((succs dag v).map (fun c => getPathProbability dag (p ++ [c]))).sum
      = getPathProbability dag p := by
  have hconst : ∀ c ∈ succs dag v, getPathProbability dag (p ++ [c])
      = (p.map (fun node => 1 / ((succs dag node).length : ℚ))).prod := by
    intro c _
    unfold getPathProbability
    rw [List.dropLast_concat]
  rw [List.map_congr_left hconst]
  have hmapc : (succs dag v).map (Function.const ℕ
      ((p.map (fun node => 1 / ((succs dag node).length : ℚ))).prod))
      = List.replicate (succs dag v).length
        ((p.map (fun node => 1 / ((succs dag node).length : ℚ))).prod) :=
    List.map_const _ _
  rw [show (fun _ : ℕ => (p.map
      (fun node => 1 / ((succs dag node).length : ℚ))).prod)
    = Function.const ℕ ((p.map
      (fun node => 1 / ((succs dag node).length : ℚ))).prod) from rfl]
  rw [hmapc, List.sum_replicate, nsmul_eq_mul]
  have hsplit : (p.map (fun node => 1 / ((succs dag node).length : ℚ))).prod
      = getPathProbability dag p * (1 / ((succs dag v).length : ℚ)) := by
    conv_lhs => rw [← List.dropLast_append_getLast hne]
    rw [List.map_append, List.prod_append, hlast]
    simp [getPathProbability]
  rw [hsplit]
  have hdq : ((succs dag v).length : ℚ) ≠ 0 := by
    exact_mod_cast Nat.pos_iff_ne_zero.mp hd
  field_simp

/-- C9 (witness): the theorem applied at the diamond graph with the
one-node path `[A]`: the two extensions `[A,B]`, `[A,C]` each have
probability `1/2`, summing to `getPathProbability [A] = 1`. -/
theorem getPathProbability_split_witness :
    0 < (succs diamond 0).length ∧
    ((succs diamond 0).map
      (fun c => getPathProbability diamond ([0] ++ [c]))).sum
      = getPathProbability diamond [0] :=
  ⟨by decide, getPathProbability_split diamond [0] 0
    (List.cons_ne_nil _ _) rfl (by decide)⟩

/-! ### C3: exact enumeration over path allocations -/

/-- The inner loop of `ExactCongestionProbability` for one flow: subtract
the flow size from each edge capacity of its chosen path in order on the
working copy, stopping at the first edge whose residual capacity drops
below that edge's `mincap`.  Returns the mutated copy and the
`congestion_found` flag.  (`setCap` does not touch `mincap`, so reading
`mincap` before or after the capacity write is equivalent.) -/
def subtractPath (d : Graph) (sz : ℚ) : List (ℕ × ℕ) → Graph × Bool
  | [] => (d, false)
  | e :: es =>
    let cap := (getEdge d e.1 e.2).1 - sz
    let mincap := (getEdge d e.1 e.2).2
    let d2 := setCap d e.1 e.2 cap
    if cap < mincap then (d2, true)
    else subtractPath d2 sz es

/-- The outer loop over the flows of one allocation (`index` is the flow
index into `flow_sizes`); short-circuits at the first congested flow. -/
def processAlloc (sizes : List ℚ) : Graph → List (List ℕ) → ℕ → Bool
  | _, [], _ => false
  | d, pth :: rest, i =>
    let r := subtractPath d (sizes.getD i 0) (pathEdges pth)
    if r.2 then true else processAlloc sizes r.1 rest (i + 1)

/-- Python `itertools.product(*flow_paths)`. -/
def cartProduct {α : Type} : List (List α) → List (List α)
  | [] => [[]]
  | xs :: rest => xs.flatMap (fun x => (cartProduct rest).map (x :: ·))

/-- Python `ProbabiliyCalculator.ExactCongestionProbability`. -/
def ExactCongestionProbability (all_dag : Graph)
    (flow_paths : List (List (List ℕ))) (flow_sizes : List ℚ) : ℚ :=
  let allocs := cartProduct flow_paths
  let congestion_samples :=
    (allocs.filter (fun a => processAlloc flow_sizes all_dag a 0)).length
  (congestion_samples : ℚ) / (allocs.length : ℚ)

/-- The flattened sequence of elementary capacity subtractions
`(edge, size)` performed for one allocation. -/
def allocOps (sizes : List ℚ) : List (List ℕ) → ℕ → List ((ℕ × ℕ) × ℚ)
  | [], _ => []
  | pth :: rest, i =>
    (pathEdges pth).map (fun e => (e, sizes.getD i 0)) ++ allocOps sizes rest (i + 1)

/-- One elementary subtraction applied to the working copy. -/
def applyOp (d : Graph) (o : (ℕ × ℕ) × ℚ) : Graph :=
  setCap d o.1.1 o.1.2 ((getEdge d o.1.1 o.1.2).1 - o.2)

def applyOps (d : Graph) (l : List ((ℕ × ℕ) × ℚ)) : Graph :=
  l.foldl applyOp d

/-- The subtraction `o`, made on state `d`, leaves the edge's residual
capacity below its `mincap`. -/
def opViolates (d : Graph) (o : (ℕ × ℕ) × ℚ) : Prop :=
  (getEdge d o.1.1 o.1.2).1 - o.2 < (getEdge d o.1.1 o.1.2).2

/-- Run a sequence of elementary subtractions with the same short-circuit
behaviour as the nested loops. -/
def runOps : Graph → List ((ℕ × ℕ) × ℚ) → Graph × Bool
  | d, [] => (d, false)
  | d, o :: os =>
    if (getEdge d o.1.1 o.1.2).1 - o.2 < (getEdge d o.1.1 o.1.2).2 then
      (applyOp d o, true)
    else runOps (applyOp d o) os

theorem subtractPath_eq_runOps (sz : ℚ) :
    ∀ (es : List (ℕ × ℕ)) (d : Graph),
      subtractPath d sz es = runOps d (es.map (fun e => (e, sz))) := by
  intro es
  induction es with
  | nil => intro d; rfl
  | cons e es ih =>
    intro d
    rw [subtractPath, List.map_cons, runOps]
    by_cases h : (getEdge d e.1 e.2).1 - sz < (getEdge d e.1 e.2).2
    · rw [if_pos h, if_pos h]
      rfl
    · rw [if_neg h, if_neg h]
      exact ih _

theorem runOps_append (l1 l2 : List ((ℕ × ℕ) × ℚ)) :
    ∀ d : Graph, runOps d (l1 ++ l2)
      = if (runOps d l1).2 then runOps d l1
        else runOps (runOps d l1).1 l2 := by
  induction l1 with
  | nil => intro d; simp [runOps]
  | cons o l1 ih =>
    intro d
    rw [List.cons_append, runOps]
    by_cases h : (getEdge d o.1.1 o.1.2).1 - o.2 < (getEdge d o.1.1 o.1.2).2
    · rw [if_pos h]
      rw [show runOps d (o :: l1) = (applyOp d o, true) by rw [runOps, if_pos h]]
      simp
    · rw [if_neg h]
      rw [show runOps d (o :: l1) = runOps (applyOp d o) l1 by
        rw [runOps, if_neg h]]
      exact ih _

theorem runOps_fst_of_not_congested (l : List ((ℕ × ℕ) × ℚ)) :
    ∀ d : Graph, (runOps d l).2 = false → (runOps d l).1 = applyOps d l := by
  induction l with
  | nil => intro d _; rfl
  | cons o l ih =>
    intro d h
    rw [runOps] at h ⊢
    by_cases hv : (getEdge d o.1.1 o.1.2).1 - o.2 < (getEdge d o.1.1 o.1.2).2
    · rw [if_pos hv] at h
      simp at h
    · rw [if_neg hv] at h ⊢
      rw [ih _ h]
      rfl

theorem processAlloc_eq_runOps (sizes : List ℚ) :
    ∀ (alloc : List (List ℕ)) (d : Graph) (i : ℕ),
      processAlloc sizes d alloc i = (runOps d (allocOps sizes alloc i)).2 := by
  intro alloc
  induction alloc with
  | nil => intro d i; rfl
  | cons pth rest ih =>
    intro d i
    rw [processAlloc, allocOps, runOps_append,
      subtractPath_eq_runOps (sizes.getD i 0) (pathEdges pth) d]
    by_cases h : (runOps d ((pathEdges pth).map
        (fun e => (e, sizes.getD i 0)))).2
    · rw [if_pos h, if_pos h]
      exact h.symm
    · rw [if_neg h]
      rw [show (runOps d ((pathEdges pth).map
          (fun e => (e, sizes.getD i 0)))).2 = false from
        Bool.not_eq_true _ |>.mp h]
      simp only [Bool.false_eq_true, if_false]
      exact ih _ _

theorem runOps_true_iff (l : List ((ℕ × ℕ) × ℚ)) :
    ∀ d : Graph, (runOps d l).2 = true ↔
      ∃ j o, l[j]? = some o ∧ opViolates (applyOps d (l.take j)) o := by
  induction l with
  | nil =>
    intro d
    constructor
    · intro h; simp [runOps] at h
    · rintro ⟨j, o, hj, _⟩; simp at hj
  | cons p os ih =>
    intro d
    by_cases hv : (getEdge d p.1.1 p.1.2).1 - p.2 < (getEdge d p.1.1 p.1.2).2
    · constructor
      · intro _
        exact ⟨0, p, by simp, hv⟩
      · intro _
        rw [runOps, if_pos hv]
    · rw [runOps, if_neg hv, ih (applyOp d p)]
      constructor
      · rintro ⟨j, o, hj, hviol⟩
        refine ⟨j + 1, o, by simpa using hj, ?_⟩
        rw [List.take_succ_cons]
        exact hviol
      · rintro ⟨j, o, hj, hviol⟩
        match j, hj, hviol with
        | 0, hj, hviol =>
          have ho : p = o := by simpa using hj
          subst ho
          exact absurd hviol hv
        | j + 1, hj, hviol =>
          refine ⟨j, o, by simpa using hj, ?_⟩
          rw [List.take_succ_cons] at hviol
          exact hviol

/-- The end-to-end example of the spec: two flows of size 5, two disjoint
single-edge candidate paths `0→1` and `2→3`, each of capacity 8 and
mincap 0. -/
def ecpExampleDag : Graph := [(0, [(1, 8, 0)]), (1, []), (2, [(3, 8, 0)]), (3, [])]

def ecpExamplePaths : List (List (List ℕ)) := [[[0, 1], [2, 3]], [[0, 1], [2, 3]]]

def ecpExampleSizes : List ℚ := [5, 5]

/-- C3: `ExactCongestionProbability` returns the number of congested
combinations in the Cartesian product of the per-flow candidate path lists
divided by the total number of combinations; a combination is congested
exactly when, subtracting each flow's size from the capacity of every edge
of its chosen path in assignment order on a working copy, some edge's
residual capacity drops below that edge's `mincap` (the first such edge
stops the processing; `opViolates` states the condition at the first
violating subtraction).  For two flows of size 5 and two disjoint
single-edge candidate paths of capacity 8 and mincap 0, the result is
`1/2`. -/
theorem ExactCongestionProbability_spec :
    (∀ (d : Graph) (fps : List (List (List ℕ))) (sizes : List ℚ),
      ExactCongestionProbability d fps sizes
        = (((cartProduct fps).filter
            (fun a => processAlloc sizes d a 0)).length : ℚ)
          / ((cartProduct fps).length : ℚ)) ∧
    (∀ (d : Graph) (sizes : List ℚ) (a : List (List ℕ)),
      processAlloc sizes d a 0 = true ↔
      ∃ j o, (allocOps sizes a 0)[j]? = some o ∧
        opViolates (applyOps d ((allocOps sizes a 0).take j)) o) ∧
    ExactCongestionProbability ecpExampleDag ecpExamplePaths ecpExampleSizes
      = 1/2 := by
  refine ⟨fun d fps sizes => rfl, ?_, by
    norm_num [ExactCongestionProbability, ecpExampleDag, ecpExamplePaths,
      ecpExampleSizes, cartProduct, processAlloc, subtractPath, pathEdges,
      getEdge, setCap, adjList, List.find?]⟩
  intro d sizes a
  rw [processAlloc_eq_runOps]
  exact runOps_true_iff _ d

/-! ### C7: the de-duplicated allocation space of
`SampledCongestionProbability` -/

/-- Python `itertools.combinations_with_replacement(range(m), L)` restricted to
entries in `[lo, m)`: all nondecreasing index tuples, first entry chosen
smallest, exactly as the itertools enumeration does. -/
def cwrFrom (m : ℕ) : ℕ → ℕ → List (List ℕ)
  | _, 0 => [[]]
  | lo, L + 1 =>
    (List.range' lo (m - lo)).flatMap (fun x => (cwrFrom m x L).map (x :: ·))

/-- Python `itertools.combinations_with_replacement(range(m), L)`. -/
def combinationsWithReplacement (m L : ℕ) : List (List ℕ) :=
  cwrFrom m 0 L

/-- The list `all_allocs`: every combination-with-replacement expanded to all of its
permutations.  (`List.permutations` has the same members, with the same
positional multiplicities, as `itertools.permutations`.) -/
def allAllocs (m L : ℕ) : List (List ℕ) :=
  (combinationsWithReplacement m L).flatMap List.permutations

/-- The de-duplication loop
`[final_allocs.append(a) for a in all_allocs if a not in final_allocs]`,
keeping first occurrences. -/
def pyDedup {α : Type} [DecidableEq α] (l : List α) : List α :=
  l.foldl (fun acc a => if a ∈ acc then acc else acc ++ [a]) []

/-- The list `final_allocs` of `SampledCongestionProbability` for a capacity list
`m` and a flow-size list `n`; it depends only on the two lengths. -/
def sampledAllocationSpace (m n : List ℚ) : List (List ℕ) :=
  pyDedup (allAllocs m.length n.length)

theorem pyDedup_go_mem {α : Type} [DecidableEq α] (l : List α) :
    ∀ (acc : List α) (x : α),
      x ∈ l.foldl (fun acc a => if a ∈ acc then acc else acc ++ [a]) acc
        ↔ x ∈ acc ∨ x ∈ l := by
  induction l with
  | nil => intro acc x; simp
  | cons a l ih =>
    intro acc x
    rw [List.foldl_cons]
    by_cases ha : a ∈ acc
    · rw [if_pos ha, ih]
      constructor
      · rintro (h | h)
        · exact Or.inl h
        · exact Or.inr (List.mem_cons_of_mem _ h)
      · rintro (h | h)
        · exact Or.inl h
        · rcases List.mem_cons.mp h with h | h
          · subst h; exact Or.inl ha
          · exact Or.inr h
    · rw [if_neg ha, ih]
      constructor
      · rintro (h | h)
        · rcases List.mem_append.mp h with h | h
          · exact Or.inl h
          · rw [List.mem_singleton] at h
            subst h
            exact Or.inr (List.mem_cons_self _ _)
        · exact Or.inr (List.mem_cons_of_mem _ h)
      · rintro (h | h)
        · exact Or.inl (List.mem_append_left _ h)
        · rcases List.mem_cons.mp h with h | h
          · subst h
            exact Or.inl (List.mem_append_right _ (List.mem_singleton.mpr rfl))
          · exact Or.inr h

theorem pyDedup_go_nodup {α : Type} [DecidableEq α] (l : List α) :
    ∀ acc : List α, acc.Nodup →
      (l.foldl (fun acc a => if a ∈ acc then acc else acc ++ [a]) acc).Nodup := by
  induction l with
  | nil => intro acc h; exact h
  | cons a l ih =>
    intro acc h
    rw [List.foldl_cons]
    by_cases ha : a ∈ acc
    · rw [if_pos ha]; exact ih _ h
    · rw [if_neg ha]
      apply ih
      rw [List.nodup_append]
      refine ⟨h, List.nodup_singleton _, ?_⟩
      intro x hx hy
      rw [List.mem_singleton] at hy
      subst hy
      exact ha hx

theorem pyDedup_mem {α : Type} [DecidableEq α] (l : List α) (x : α) :
    x ∈ pyDedup l ↔ x ∈ l := by
  unfold pyDedup
  rw [pyDedup_go_mem]
  simp

theorem pyDedup_nodup {α : Type} [DecidableEq α] (l : List α) :
    (pyDedup l).Nodup :=
  pyDedup_go_nodup l [] List.nodup_nil

theorem cwrFrom_sound (m : ℕ) : ∀ (L lo : ℕ) (p : List ℕ),
    p ∈ cwrFrom m lo L →
    p.length = L ∧ (∀ x ∈ p, lo ≤ x ∧ x < m) ∧ List.Sorted (· ≤ ·) p := by
  intro L
  induction L with
  | zero =>
    intro lo p hp
    rw [cwrFrom, List.mem_singleton] at hp
    subst hp
    simp
  | succ L ih =>
    intro lo p hp
    rw [cwrFrom, List.mem_flatMap] at hp
    obtain ⟨x, hx, hp⟩ := hp
    rw [List.mem_map] at hp
    obtain ⟨q, hq, rfl⟩ := hp
    rw [List.mem_range'_1] at hx
    obtain ⟨hq1, hq2, hq3⟩ := ih x q hq
    refine ⟨by simp [hq1], ?_, ?_⟩
    · intro y hy
      rcases List.mem_cons.mp hy with rfl | hy
      · exact ⟨hx.1, by omega⟩
      · obtain ⟨hxy, hym⟩ := hq2 y hy
        exact ⟨le_trans hx.1 hxy, hym⟩
    · rw [List.sorted_cons]
      exact ⟨fun b hb => (hq2 b hb).1, hq3⟩

theorem cwrFrom_complete (m : ℕ) : ∀ (p : List ℕ),
    List.Sorted (· ≤ ·) p → ∀ lo, (∀ x ∈ p, lo ≤ x ∧ x < m) →
    p ∈ cwrFrom m lo p.length := by
  intro p
  induction p with
  | nil => intro _ lo _; rw [List.length_nil, cwrFrom]; simp
  | cons x q ih =>
    intro hs lo hb
    rw [List.length_cons, cwrFrom, List.mem_flatMap]
    obtain ⟨hlo, hxm⟩ := hb x (List.mem_cons_self _ _)
    refine ⟨x, List.mem_range'_1.mpr ⟨hlo, by omega⟩, ?_⟩
    rw [List.mem_map]
    refine ⟨q, ?_, rfl⟩
    apply ih (List.sorted_cons.mp hs).2 x
    intro y hy
    exact ⟨(List.sorted_cons.mp hs).1 y hy, (hb y (List.mem_cons_of_mem _ hy)).2⟩

theorem mem_allAllocs (m L : ℕ) (t : List ℕ) :
    t ∈ allAllocs m L ↔ t.length = L ∧ ∀ x ∈ t, x < m := by
  unfold allAllocs combinationsWithReplacement
  rw [List.mem_flatMap]
  constructor
  · rintro ⟨p, hp, ht⟩
    rw [List.mem_permutations] at ht
    obtain ⟨hlen, hbound, _⟩ := cwrFrom_sound m L 0 p hp
    exact ⟨ht.length_eq.trans hlen,
      fun x hx => (hbound x (ht.mem_iff.mp hx)).2⟩
  · rintro ⟨hlen, hbound⟩
    have hperm := List.perm_insertionSort (· ≤ ·) t
    refine ⟨List.insertionSort (· ≤ ·) t, ?_, ?_⟩
    · have hl : (List.insertionSort (· ≤ ·) t).length = L :=
        hperm.length_eq.trans hlen
      rw [← hl]
      apply cwrFrom_complete m _ (List.sorted_insertionSort _ _) 0
      intro y hy
      exact ⟨Nat.zero_le y, hbound y (hperm.mem_iff.mp hy)⟩
    · rw [List.mem_permutations]
      exact hperm.symm

theorem mem_cartProduct_replicate (m : ℕ) :
    ∀ (L : ℕ) (t : List ℕ),
      t ∈ cartProduct (List.replicate L (List.range m))
        ↔ t.length = L ∧ ∀ x ∈ t, x < m := by
  intro L
  induction L with
  | zero =>
    intro t
    constructor
    · intro h
      rw [List.replicate, cartProduct, List.mem_singleton] at h
      subst h
      simp
    · rintro ⟨hlen, _⟩
      rw [List.length_eq_zero] at hlen
      subst hlen
      rw [List.replicate, cartProduct]
      simp
  | succ L ih =>
    intro t
    rw [List.replicate_succ, cartProduct, List.mem_flatMap]
    constructor
    · rintro ⟨x, hx, ht⟩
      rw [List.mem_map] at ht
      obtain ⟨q, hq, rfl⟩ := ht
      rw [List.mem_range] at hx
      obtain ⟨h1, h2⟩ := (ih q).mp hq
      refine ⟨by simp [h1], ?_⟩
      intro y hy
      rcases List.mem_cons.mp hy with rfl | hy
      · exact hx
      · exact h2 y hy
    · rintro ⟨hlen, hbound⟩
      match t, hlen with
      | x :: q, hlen =>
        refine ⟨x, List.mem_range.mpr (hbound x (List.mem_cons_self _ _)), ?_⟩
        rw [List.mem_map]
        exact ⟨q, (ih q).mpr ⟨by simpa using hlen,
          fun y hy => hbound y (List.mem_cons_of_mem _ hy)⟩, rfl⟩

theorem length_cartProduct_replicate (m : ℕ) :
    ∀ L : ℕ, (cartProduct (List.replicate L (List.range m))).length = m ^ L := by
  intro L
  induction L with
  | zero => rfl
  | succ L ih =>
    rw [List.replicate_succ, cartProduct, List.length_flatMap]
    have h1 : List.map (List.length ∘ fun x =>
        (cartProduct (List.replicate L (List.range m))).map (x :: ·))
        (List.range m) = List.replicate m (m ^ L) := by
      have h2 : (List.length ∘ fun x : ℕ =>
          (cartProduct (List.replicate L (List.range m))).map (x :: ·))
          = Function.const ℕ (m ^ L) := by
        funext x
        simp [Function.comp, ih]
      rw [h2, List.map_const, List.length_range]
    rw [h1, List.sum_replicate, smul_eq_mul, pow_succ, Nat.mul_comm]

theorem nodup_cartProduct_replicate (m : ℕ) :
    ∀ L : ℕ, (cartProduct (List.replicate L (List.range m))).Nodup := by
  intro L
  induction L with
  | zero =>
    rw [List.replicate, cartProduct]
    simp
  | succ L ih =>
    rw [List.replicate_succ, cartProduct, List.nodup_flatMap]
    constructor
    · intro x _
      exact ih.map (fun a b hab => by injection hab)
    · have hr : (List.range m).Nodup := List.nodup_range _
      refine List.Pairwise.imp ?_ hr
      intro a b hab t hta htb
      rw [List.mem_map] at hta htb
      obtain ⟨q, _, hq⟩ := hta
      obtain ⟨q2, _, hq2⟩ := htb
      rw [← hq] at hq2
      injection hq2 with h1 _
      exact hab h1.symm

/-- C7: in `SampledCongestionProbability` with capacity list `m` and
flow-size list `n`, the de-duplicated allocation list built from
combinations-with-replacement over path indices expanded to all
permutations contains every tuple of length `len(n)` over
`{0, …, len(m)-1}` exactly once; in particular its length is
`len(m) ^ len(n)`. -/
theorem count_eq_one_of_nodup_mem {α : Type} [BEq α] [LawfulBEq α]
    {l : List α} {a : α} (hn : l.Nodup) (ha : a ∈ l) : l.count a = 1 := by
  induction l with
  | nil => simp at ha
  | cons x l ih =>
    by_cases hax : a = x
    · subst hax
      have hnx : a ∉ l := (List.nodup_cons.mp hn).1
      rw [List.count_cons_self, List.count_eq_zero.mpr hnx]
    · have ha2 : a ∈ l := by
        rcases List.mem_cons.mp ha with h | h
        · exact absurd h hax
        · exact h
      rw [List.count_cons_of_ne hax]
      exact ih (List.nodup_cons.mp hn).2 ha2

theorem sampledAllocationSpace_spec (m n : List ℚ) (t : List ℕ) :
    (t ∈ sampledAllocationSpace m n ↔
      t.length = n.length ∧ ∀ x ∈ t, x < m.length) ∧
    (t.length = n.length → (∀ x ∈ t, x < m.length) →
      (sampledAllocationSpace m n).count t = 1) ∧
    (sampledAllocationSpace m n).length = m.length ^ n.length := by
  have hmem : ∀ s : List ℕ, s ∈ sampledAllocationSpace m n ↔
      s.length = n.length ∧ ∀ x ∈ s, x < m.length := by
    intro s
    unfold sampledAllocationSpace
    rw [pyDedup_mem, mem_allAllocs]
  have hnodup : (sampledAllocationSpace m n).Nodup := pyDedup_nodup _
  refine ⟨hmem t, ?_, ?_⟩
  · intro h1 h2
    exact count_eq_one_of_nodup_mem hnodup ((hmem t).mpr ⟨h1, h2⟩)
  · have htof : (sampledAllocationSpace m n).toFinset
        = (cartProduct (List.replicate n.length
            (List.range m.length))).toFinset := by
      ext s
      rw [List.mem_toFinset, List.mem_toFinset, hmem,
        mem_cartProduct_replicate]
    have hc1 := List.toFinset_card_of_nodup hnodup
    have hc2 := List.toFinset_card_of_nodup
      (nodup_cartProduct_replicate m.length n.length)
    rw [← hc1, htof, hc2, length_cartProduct_replicate]

/-- C7 (witness): for two capacities and one flow, the allocation `[1]`
(flow on the second path) appears exactly once. -/
theorem sampledAllocationSpace_spec_witness :
    ([1] : List ℕ).length = ([5] : List ℚ).length ∧
    (∀ x ∈ ([1] : List ℕ), x < ([3, 7] : List ℚ).length) ∧
    (sampledAllocationSpace [3, 7] [5]).count [1] = 1 :=
  ⟨rfl, by decide,
    (sampledAllocationSpace_spec [3, 7] [5] [1]).2.1 rfl (by decide)⟩

/-! ### C10: probability outputs stay in [0, 1] -/

/-- Python `ProbabiliyCalculator.flowCongestionProbability`: sum the path
probabilities of every loop-free path whose bottleneck capacity is below
the flow size.  (`getMinCapacity` returns `none` only for a single-node
path, which the enumeration produces only when `ingress = egress`; on such
inputs the Python code raises, here the path is treated as
non-congesting.) -/
def flowCongestionProbability (dag : Graph) (ingress_router egress_router : ℕ)
    (flow_size : ℚ) : ℚ :=
  let all_paths := getAllPathsLimDAG dag ingress_router egress_router 0 []
  let paths_congestion := all_paths.filter (fun p =>
    match getMinCapacity dag p with
    | some c => decide (c < flow_size)
    | none => false)
  (paths_congestion.map (fun p => getPathProbability dag p)).sum

/-- The ECMP split factor `1 / outDegree v` of one node. -/
def invOutDeg (dag : Graph) (v : ℕ) : ℚ :=
  1 / ((succs dag v).length : ℚ)

theorem invOutDeg_nonneg (dag : Graph) (v : ℕ) : 0 ≤ invOutDeg dag v :=
  div_nonneg zero_le_one (Nat.cast_nonneg _)

theorem getPathProbability_eq (dag : Graph) (p : List ℕ) :
    getPathProbability dag p = (p.dropLast.map (invOutDeg dag)).prod := rfl

theorem prodInv_nonneg (dag : Graph) (l : List ℕ) :
    0 ≤ (l.map (invOutDeg dag)).prod := by
  apply List.prod_nonneg
  intro a ha
  rw [List.mem_map] at ha
  obtain ⟨v, _, rfl⟩ := ha
  exact invOutDeg_nonneg dag v

theorem getPathProbability_nonneg (dag : Graph) (p : List ℕ) :
    0 ≤ getPathProbability dag p := by
  rw [getPathProbability_eq]
  exact prodInv_nonneg dag p.dropLast

theorem sum_map_flatMap {α β : Type} (l : List α) (f : α → List β) (g : β → ℚ) :
    ((l.flatMap f).map g).sum = (l.map (fun a => ((f a).map g).sum)).sum := by
  induction l with
  | nil => rfl
  | cons a l ih =>
    rw [List.flatMap_cons, List.map_append, List.sum_append, ih,
      List.map_cons, List.sum_cons]

/-- The probability mass of all paths enumerated from `start` with visited
prefix `path` is at most the mass `∏ (1/outdeg)` that entered `start`:
distinct loop-free continuations describe disjoint events of the uniform
ECMP walk. -/
theorem pathsSum_le (dag : Graph) :
    ∀ (start endNode k : ℕ) (path : List ℕ),
      ((getAllPathsLimDAG dag start endNode k path).map
        (fun p => getPathProbability dag p)).sum
        ≤ (path.map (invOutDeg dag)).prod := by
  intro start endNode k path
  induction start, endNode, k, path using getAllPathsLimDAG.induct dag with
  | case1 endNode k path =>
    rw [getAllPathsLimDAG]
    simp only [if_pos rfl, if_true, List.map_cons, List.map_nil,
      List.sum_cons, List.sum_nil, add_zero]
    rw [getPathProbability_eq, List.dropLast_concat]
  | case2 start endNode k path h1 h2 =>
    rw [getAllPathsLimDAG, if_neg h1, if_pos h2]
    simp only [List.map_nil, List.sum_nil]
    exact prodInv_nonneg dag path
  | case3 start endNode k path path2 h1 h2 ih =>
    have hp2 : path2 = path ++ [start] := rfl
    rw [getAllPathsLimDAG, if_neg h1, if_neg h2]
    rw [sum_map_flatMap]
    have hpoint : ∀ c ∈ (succs dag start).attach,
        ((if _hmem : c.1 ∈ path ++ [start] then []
          else if k = 0 then getAllPathsLimDAG dag c.1 endNode k (path ++ [start])
          else if (path ++ [start]).length < k + 1 then
            getAllPathsLimDAG dag c.1 endNode k (path ++ [start])
          else []).map (fun p => getPathProbability dag p)).sum
        ≤ ((path ++ [start]).map (invOutDeg dag)).prod := by
      intro c _
      by_cases hmem : c.1 ∈ path ++ [start]
      · rw [dif_pos hmem]
        simp only [List.map_nil, List.sum_nil]
        exact prodInv_nonneg dag _
      · rw [dif_neg hmem]
        by_cases hk : k = 0
        · rw [if_pos hk]
          exact ih c hmem
        · rw [if_neg hk]
          by_cases hlen : (path ++ [start]).length < k + 1
          · rw [if_pos hlen]
            exact ih c hmem
          · rw [if_neg hlen]
            simp only [List.map_nil, List.sum_nil]
            exact prodInv_nonneg dag _
    have hsum := List.sum_le_sum hpoint
    apply le_trans hsum
    rw [show (fun _ : { x // x ∈ succs dag start } =>
        ((path ++ [start]).map (invOutDeg dag)).prod)
      = Function.const _ (((path ++ [start]).map (invOutDeg dag)).prod)
      from rfl]
    rw [List.map_const, List.sum_replicate, List.length_attach, nsmul_eq_mul]
    rw [List.map_append, List.prod_append]
    simp only [List.map_cons, List.map_nil, List.prod_cons, List.prod_nil,
      mul_one]
    rcases Nat.eq_zero_or_pos (succs dag start).length with hd | hd
    · rw [hd]
      simp only [Nat.cast_zero, zero_mul]
      exact prodInv_nonneg dag path
    · have hdq : ((succs dag start).length : ℚ) ≠ 0 := by
        exact_mod_cast Nat.pos_iff_ne_zero.mp hd
      rw [invOutDeg]
      rw [show ((succs dag start).length : ℚ)
          * ((path.map (invOutDeg dag)).prod
            * (1 / ((succs dag start).length : ℚ)))
        = (path.map (invOutDeg dag)).prod
          * (((succs dag start).length : ℚ)
            * (1 / ((succs dag start).length : ℚ))) from by ring]
      rw [mul_one_div_cancel hdq, mul_one]

theorem flowCongestionProbability_bounds (dag : Graph) (i e : ℕ) (fs : ℚ) :
    0 ≤ flowCongestionProbability dag i e fs ∧
    flowCongestionProbability dag i e fs ≤ 1 := by
  unfold flowCongestionProbability
  have hnn : ∀ x ∈ (getAllPathsLimDAG dag i e 0 []).map
      (fun p => getPathProbability dag p), 0 ≤ x := by
    intro x hx
    rw [List.mem_map] at hx
    obtain ⟨p, _, rfl⟩ := hx
    exact getPathProbability_nonneg dag p
  constructor
  · apply List.sum_nonneg
    intro x hx
    rw [List.mem_map] at hx
    obtain ⟨p, _, rfl⟩ := hx
    exact getPathProbability_nonneg dag p
  · have hsub : ((getAllPathsLimDAG dag i e 0 []).filter (fun p =>
        match getMinCapacity dag p with
        | some c => decide (c < fs)
        | none => false)).Sublist (getAllPathsLimDAG dag i e 0 []) :=
      List.filter_sublist _
    have hle := (hsub.map (fun p => getPathProbability dag p)).sum_le_sum hnn
    apply le_trans hle
    have hall := pathsSum_le dag i e 0 []
    simpa using hall

/-- A store state all of whose cached values lie in `[0, 1]` (every value
the engine itself inserts does). -/
def StoreValid (s : Store) : Prop :=
  ∀ kv ∈ s, 0 ≤ kv.2 ∧ kv.2 ≤ 1

theorem StoreValid_lookup (s : Store) (key : SKey) (v : ℚ)
    (hs : StoreValid s) (h : lookupStore s key = some v) :
    0 ≤ v ∧ v ≤ 1 := by
  unfold lookupStore at h
  cases hf : s.find? (fun p => decide (p.1 = key)) with
  | none => rw [hf] at h; simp at h
  | some kv =>
    rw [hf] at h
    have hv : kv.2 = v := by simpa using h
    subst hv
    exact hs kv (List.mem_of_find?_eq_some hf)

theorem StoreValid_insertIfAbsent (s : Store) (key : SKey) (v : ℚ)
    (hs : StoreValid s) (h0 : 0 ≤ v) (h1 : v ≤ 1) :
    StoreValid (insertIfAbsent s key v) := by
  unfold insertIfAbsent
  split
  · exact hs
  · intro kv hkv
    rcases List.mem_append.mp hkv with h | h
    · exact hs kv h
    · rw [List.mem_singleton] at h
      subst h
      exact ⟨h0, h1⟩

theorem binomTerm_nonneg (m n t : ℕ) (hm : 1 ≤ m) : 0 ≤ binomTerm m n t := by
  unfold binomTerm
  have h1 : (0:ℚ) ≤ (n.choose t : ℚ) := Nat.cast_nonneg _
  have h2 : (0:ℚ) ≤ (1 / (m:ℚ)) ^ t :=
    pow_nonneg (div_nonneg zero_le_one (Nat.cast_nonneg _)) _
  have h3 : (0:ℚ) ≤ (((m:ℚ) - 1) / (m:ℚ)) ^ (n - t) := by
    apply pow_nonneg
    apply div_nonneg _ (Nat.cast_nonneg _)
    rw [sub_nonneg]
    exact_mod_cast hm
  exact mul_nonneg (mul_nonneg h1 h2) h3

theorem binomTerm_sum (m n : ℕ) (hm : 1 ≤ m) :
    ∑ t ∈ Finset.range (n + 1), binomTerm m n t = 1 := by
  have hm0 : (m : ℚ) ≠ 0 := by
    exact_mod_cast Nat.pos_iff_ne_zero.mp hm
  have hkey : (1 : ℚ)/(m:ℚ) + ((m:ℚ) - 1)/(m:ℚ) = 1 := by field_simp
  have hcalc : ∑ t ∈ Finset.range (n + 1), binomTerm m n t
      = ((1 : ℚ)/(m:ℚ) + ((m:ℚ) - 1)/(m:ℚ)) ^ n := by
    rw [add_pow]
    apply Finset.sum_congr rfl
    intro t _
    unfold binomTerm
    ring
  rw [hcalc, hkey, one_pow]

theorem SNCPsum_bound (f : ℕ → Store → ℚ × Store) (m n : ℕ) (hm : 1 ≤ m)
    (hf : ∀ n' s, StoreValid s →
      (0 ≤ (f n' s).1 ∧ (f n' s).1 ≤ 1) ∧ StoreValid (f n' s).2) :
    ∀ (r t : ℕ) (s : Store), StoreValid s →
      (0 ≤ (SNCPsum f m n t r s).1 ∧
       (SNCPsum f m n t r s).1
         ≤ ∑ j ∈ Finset.range r, binomTerm m n (t + j)) ∧
      StoreValid (SNCPsum f m n t r s).2 := by
  intro r
  induction r with
  | zero =>
    intro t s hs
    exact ⟨⟨le_refl 0, by simp [SNCPsum]⟩, hs⟩
  | succ r ih =>
    intro t s hs
    simp only [SNCPsum]
    obtain ⟨⟨ha0, ha1⟩, hs2⟩ := hf (n - t) s hs
    obtain ⟨⟨hr0, hr1⟩, hs3⟩ := ih (t + 1) (f (n - t) s).2 hs2
    refine ⟨⟨?_, ?_⟩, hs3⟩
    · exact add_nonneg (mul_nonneg ha0 (binomTerm_nonneg m n t hm)) hr0
    · have h1 : (f (n - t) s).1 * binomTerm m n t ≤ binomTerm m n t :=
        mul_le_of_le_one_left (binomTerm_nonneg m n t hm) ha1
      have h2 : ∑ j ∈ Finset.range (r + 1), binomTerm m n (t + j)
          = binomTerm m n t
            + ∑ j ∈ Finset.range r, binomTerm m n (t + 1 + j) := by
        rw [Finset.sum_range_succ' (fun j => binomTerm m n (t + j)) r]
        rw [Finset.sum_congr rfl (fun i _ => by
          rw [show t + (i + 1) = t + 1 + i from by omega])]
        simp [add_comm]
      rw [h2]
      exact add_le_add h1 hr1

theorem SNonCongestionProbability_bound :
    ∀ (m n k : ℕ) (s : Store), StoreValid s →
      (0 ≤ (SNonCongestionProbability m n k s).1 ∧
       (SNonCongestionProbability m n k s).1 ≤ 1) ∧
      StoreValid (SNonCongestionProbability m n k s).2 := by
  intro m n k s
  induction m, n, k, s using SNonCongestionProbability.induct with
  | case1 m n k s v hv =>
    intro hs
    rw [SNonCongestionProbability]
    simp only [hv]
    exact ⟨StoreValid_lookup s (m, n, k) v hs hv, hs⟩
  | case2 m n k s habs hlt =>
    intro hs
    rw [SNonCongestionProbability]
    simp only [habs, hlt, dif_pos]
    exact ⟨⟨le_refl 0, zero_le_one⟩, hs⟩
  | case3 m n k s habs hnlt hle =>
    intro hs
    rw [SNonCongestionProbability]
    simp only [habs, hnlt, hle, dif_neg, not_false_iff, dif_pos]
    exact ⟨⟨zero_le_one, le_refl 1⟩, hs⟩
  | case4 m n k s habs hnlt hnle ih =>
    intro hs
    have hm : 1 ≤ m := by
      rcases Nat.eq_zero_or_pos m with h0 | h
      · subst h0
        exfalso
        simp only [Nat.zero_mul, Nat.not_lt] at hnlt
        omega
      · exact h
    have hkn : k < n := Nat.not_le.mp hnle
    rw [SNonCongestionProbability]
    simp only [habs, hnlt, hnle, dif_neg, not_false_iff]
    obtain ⟨⟨h0, h1⟩, hsv⟩ :=
      SNCPsum_bound (fun n' s' => SNonCongestionProbability (m - 1) n' k s')
        m n hm (fun n' s' hs' => ih n' s' hs') (k + 1) 0 s hs
    have hle1 : (SNCPsum (fun n' s' =>
        SNonCongestionProbability (m - 1) n' k s') m n 0 (k + 1) s).1 ≤ 1 := by
      apply le_trans h1
      have hzero : ∑ j ∈ Finset.range (k + 1), binomTerm m n (0 + j)
          = ∑ j ∈ Finset.range (k + 1), binomTerm m n j :=
        Finset.sum_congr rfl (fun i _ => by rw [Nat.zero_add])
      rw [hzero]
      have hmono : ∑ j ∈ Finset.range (k + 1), binomTerm m n j
          ≤ ∑ j ∈ Finset.range (n + 1), binomTerm m n j :=
        Finset.sum_le_sum_of_subset_of_nonneg
          (Finset.range_subset.mpr (by omega))
          (fun i _ _ => binomTerm_nonneg m n i hm)
      rw [← binomTerm_sum m n hm]
      exact hmono
    exact ⟨⟨h0, hle1⟩, StoreValid_insertIfAbsent _ _ _ hsv h0 hle1⟩

theorem SCongestionProbability_bound (m n k : ℕ) (e : Engine)
    (hs : StoreValid e.sdict) :
    0 ≤ (SCongestionProbability m n k e).1 ∧
    (SCongestionProbability m n k e).1 ≤ 1 := by
  unfold SCongestionProbability
  cases hl : lookupStore e.sdict (m, n, k) with
  | some v =>
    obtain ⟨h0, h1⟩ := StoreValid_lookup _ _ _ hs hl
    exact ⟨by simp; linarith, by simp; linarith⟩
  | none =>
    obtain ⟨⟨h0, h1⟩, _⟩ := SNonCongestionProbability_bound m n k e.sdict hs
    exact ⟨by simp; linarith, by simp; linarith⟩

theorem ExactCongestionProbability_bound (d : Graph)
    (fps : List (List (List ℕ))) (sizes : List ℚ) :
    0 ≤ ExactCongestionProbability d fps sizes ∧
    ExactCongestionProbability d fps sizes ≤ 1 := by
  have hshow : ExactCongestionProbability d fps sizes
      = (((cartProduct fps).filter
          (fun a => processAlloc sizes d a 0)).length : ℚ)
        / ((cartProduct fps).length : ℚ) := rfl
  rw [hshow]
  constructor
  · exact div_nonneg (Nat.cast_nonneg _) (Nat.cast_nonneg _)
  · rcases Nat.eq_zero_or_pos (cartProduct fps).length with h0 | hpos
    · have hf : ((cartProduct fps).filter
          (fun a => processAlloc sizes d a 0)).length = 0 := by
        have := List.length_filter_le
          (fun a => processAlloc sizes d a 0) (cartProduct fps)
        omega
      rw [hf, h0]
      norm_num
    · rw [div_le_one (by exact_mod_cast hpos)]
      exact_mod_cast List.length_filter_le _ _

/-- C10: every probability-returning operation returns a value in `[0, 1]`:
`SNonCongestionProbability` and `SCongestionProbability` on a store whose
cached values lie in `[0, 1]` (e.g. an empty or engine-populated one),
`ExactCongestionProbability` always, and `flowCongestionProbability`
always; in particular the sum of per-path probabilities over the loop-free
paths enumerated by `flowCongestionProbability` (hence over the congesting
ones it sums) never exceeds `1`. -/
theorem probabilities_in_unit_interval :
    (∀ (m n k : ℕ) (s : Store), StoreValid s →
       0 ≤ (SNonCongestionProbability m n k s).1 ∧
       (SNonCongestionProbability m n k s).1 ≤ 1) ∧
    (∀ (m n k : ℕ) (e : Engine), StoreValid e.sdict →
       0 ≤ (SCongestionProbability m n k e).1 ∧
       (SCongestionProbability m n k e).1 ≤ 1) ∧
    (∀ (d : Graph) (fps : List (List (List ℕ))) (sizes : List ℚ),
       0 ≤ ExactCongestionProbability d fps sizes ∧
       ExactCongestionProbability d fps sizes ≤ 1) ∧
    (∀ (dag : Graph) (i e : ℕ) (fs : ℚ),
       0 ≤ flowCongestionProbability dag i e fs ∧
       flowCongestionProbability dag i e fs ≤ 1 ∧
       ((getAllPathsLimDAG dag i e 0 []).map
         (fun p => getPathProbability dag p)).sum ≤ 1) :=
  ⟨fun m n k s hs => (SNonCongestionProbability_bound m n k s hs).1,
   fun m n k e hs => SCongestionProbability_bound m n k e hs,
   fun d fps sizes => ExactCongestionProbability_bound d fps sizes,
   fun dag i e fs =>
     ⟨(flowCongestionProbability_bounds dag i e fs).1,
      (flowCongestionProbability_bounds dag i e fs).2,
      by simpa using pathsSum_le dag i e 0 []⟩⟩

/-- C10 (witness): the bound applied at the concrete triple `(3, 5, 2)`
with the empty (trivially valid) store. -/
theorem probabilities_in_unit_interval_witness :
    StoreValid [] ∧
    (0 ≤ (SNonCongestionProbability 3 5 2 []).1 ∧
     (SNonCongestionProbability 3 5 2 []).1 ≤ 1) :=
  ⟨fun kv h => absurd h (List.not_mem_nil kv),
   probabilities_in_unit_interval.1 3 5 2 []
     (fun kv h => absurd h (List.not_mem_nil kv))⟩
